import Mathlib

set_option linter.unusedVariables false

/-!
Verification of the HashFolder incremental duplicate-file indexer.

The definitions below are a shallow embedding of the program's source:

* `FileEntry`, `normalize_loaded`, `save` location handling — `src/hash_data.rs`
* `ByteSize`, `ByteSize.intoU64`, `parse_byte_size` — `src/byte_size.rs`
* `AppError` — `src/errors.rs` (`Abort` vs location-tagged `Caught`)
* `scan_for_deleted`, `process_files`, `classify`, `process_folder`, `walk`,
  `hash_file`, `scan_folder_tree` — `src/scan_folders.rs` (whose per-file loop
  is line-for-line the one inlined in `src/main.rs`)
* `duplicate_report_groups`, `format_file_size` — `src/duplicate_report.rs`
* `run_scan` — the `!args.skip` scan block of `main` in `src/main.rs`

Filesystem reads, the terminal and the keypress watcher are represented by
explicit data (`DiskFile`, `FsTree`, an `onDisk` predicate and a `polls`
stream); Rust `u64` values are `Nat` with an explicit `% 2 ^ 64` at the one
place where overflow matters (`ByteSize.intoU64`).
-/

deriving instance DecidableEq for Except

namespace HashFolder

/-- One record of the persisted index: the `FileEntry` struct of
`hash_data.rs`/`main.rs` (path string, byte size, hex digest, mtime seconds). -/
structure FileEntry where
  file_name : String
  file_size : Nat
  hash : String
  modified : Nat
deriving Repr, DecidableEq

instance : Inhabited FileEntry := ⟨⟨"", 0, "", 0⟩⟩

/-- Modulus of Rust `u64` arithmetic. -/
def U64_MOD : Nat := 2 ^ 64

/-- The `ByteSize` enum of `byte_size.rs`. -/
inductive ByteSize where
  | Byte (v : Nat)
  | KByte (v : Nat)
  | KiByte (v : Nat)
  | MByte (v : Nat)
  | MiByte (v : Nat)
  | GByte (v : Nat)
  | GiByte (v : Nat)
  | TByte (v : Nat)
  | TiByte (v : Nat)
deriving Repr, DecidableEq

/-- `impl Into<u64> for ByteSize`: multiply the stored digit value by the unit
multiplier.  The Rust multiplication is plain `u64` arithmetic, modelled as
`Nat` multiplication reduced modulo `2 ^ 64` (release-mode wrapping). -/
def ByteSize.intoU64 : ByteSize → Nat
  | .Byte v => v
  | .KByte v => v * 1000 % U64_MOD
  | .KiByte v => v * 1024 % U64_MOD
  | .MByte v => v * 1000000 % U64_MOD
  | .MiByte v => v * 1048576 % U64_MOD
  | .GByte v => v * 1000000000 % U64_MOD
  | .GiByte v => v * 1073741824 % U64_MOD
  | .TByte v => v * 1000000000000 % U64_MOD
  | .TiByte v => v * 1099511627776 % U64_MOD

/-- The digit value stored inside a `ByteSize`. -/
def ByteSize.value : ByteSize → Nat
  | .Byte v | .KByte v | .KiByte v | .MByte v | .MiByte v
  | .GByte v | .GiByte v | .TByte v | .TiByte v => v

/-- The unit multiplier of each `ByteSize` constructor. -/
def ByteSize.multiplier : ByteSize → Nat
  | .Byte _ => 1
  | .KByte _ => 1000
  | .KiByte _ => 1024
  | .MByte _ => 1000000
  | .MiByte _ => 1048576
  | .GByte _ => 1000000000
  | .GiByte _ => 1073741824
  | .TByte _ => 1000000000000
  | .TiByte _ => 1099511627776

/-- Decimal value of a digit string, most significant digit first. -/
def digitsVal (s : List Char) : Nat :=
  s.foldl (fun n c => n * 10 + (c.toNat - 48)) 0

/-- Model of `str::parse::<u64>` restricted to the all-digit strings this
program feeds it: succeeds exactly on a nonempty digit string whose value fits
in an unsigned 64-bit integer, returning that value. -/
def parse_u64 (s : List Char) : Option Nat :=
  if s ≠ [] ∧ s.all Char.isDigit ∧ digitsVal s < U64_MOD then some (digitsVal s) else none

/-- `str::strip_suffix`. -/
def stripSuffix (s suf : List Char) : Option (List Char) :=
  if suf.length ≤ s.length ∧ s.drop (s.length - suf.length) = suf then
    some (s.take (s.length - suf.length))
  else none

/-- The suffix table of `ByteSizeValueParser::parse_ref`, in source order. -/
def suffixes : List (List Char) :=
  [['B'], ['K', 'B'], ['K'], ['K', 'i', 'B'], ['M', 'B'], ['M'], ['M', 'i', 'B'],
   ['G', 'B'], ['G'], ['G', 'i', 'B'], ['T', 'B'], ['T'], ['T', 'i', 'B']]

/-- The `filter_map(..).next()` over the suffix table: the first suffix that
strips off leaving an all-digit remainder, returned with that remainder. -/
def findSuffix : List (List Char) → List Char → Option (List Char × List Char)
  | [], _ => none
  | suf :: rest, s =>
    match stripSuffix s suf with
    | some d => if d.all Char.isDigit then some (d, suf) else findSuffix rest s
    | none => findSuffix rest s

/-- The `match suffix` arms of `parse_ref` mapping a recognised suffix and digit
value to a `ByteSize` constructor. -/
def suffixToByteSize (suf : List Char) (v : Nat) : Option ByteSize :=
  if suf = ['B'] then some (.Byte v)
  else if suf = ['K', 'B'] ∨ suf = ['K'] then some (.KByte v)
  else if suf = ['K', 'i', 'B'] then some (.KiByte v)
  else if suf = ['M', 'B'] ∨ suf = ['M'] then some (.MByte v)
  else if suf = ['M', 'i', 'B'] then some (.MiByte v)
  else if suf = ['G', 'B'] ∨ suf = ['G'] then some (.GByte v)
  else if suf = ['G', 'i', 'B'] then some (.GiByte v)
  else if suf = ['T', 'B'] ∨ suf = ['T'] then some (.TByte v)
  else if suf = ['T', 'i', 'B'] then some (.TiByte v)
  else none

/-- The single failure condition of the byte-size value parsing routine
(`ErrorKind::ValueValidation`, the invalid-size-literal error). -/
inductive SizeParseError where
  | invalid
deriving Repr, DecidableEq

/-- The suffixed half of `parse_ref`: find the first suffix whose remainder is
all digits, parse the remainder as `u64`, and dispatch on the suffix; every
failure falls through to the invalid-size error. -/
def parse_suffixed (s : List Char) : Except SizeParseError ByteSize :=
  match findSuffix suffixes s with
  | some (d, suf) =>
    match parse_u64 d with
    | some v =>
      match suffixToByteSize suf v with
      | some b => .ok b
      | none => .error .invalid
    | none => .error .invalid
  | none => .error .invalid

/-- `ByteSizeValueParser::parse_ref` on an already UTF-8-decoded literal: if the
whole literal is ASCII digits and parses as `u64` it is a bare byte count;
otherwise the suffix table is consulted. -/
def parse_byte_size (s : List Char) : Except SizeParseError ByteSize :=
  if s.all Char.isDigit then
    match parse_u64 s with
    | some v => .ok (.Byte v)
    | none => parse_suffixed s
  else parse_suffixed s

/-- The byte-size grammar exactly as the specification claims it: a bare
non-negative decimal integer, or an integer immediately followed by one
case-sensitive suffix from the table, where the whole remainder after stripping
the suffix must be all digits.  Stated from the claim's words (no 64-bit bound)
for comparison against the code's parser. -/
def spec_accepts (s : List Char) : Bool :=
  (decide (s ≠ []) && s.all Char.isDigit) ||
  suffixes.any fun suf =>
    match stripSuffix s suf with
    | some d => decide (d ≠ []) && d.all Char.isDigit
    | none => false

/-- The amended grammar: as `spec_accepts`, but the integer part must fit in an
unsigned 64-bit integer. -/
def spec_accepts_bounded (s : List Char) : Bool :=
  (decide (s ≠ []) && s.all Char.isDigit && decide (digitsVal s < U64_MOD)) ||
  suffixes.any fun suf =>
    match stripSuffix s suf with
    | some d => decide (d ≠ []) && d.all Char.isDigit && decide (digitsVal d < U64_MOD)
    | none => false

/-- The `AppError` taxonomy of `errors.rs`: `abort` is the distinguished
cancellation condition (the `Abort` variant produced by `AppError::new`, in
particular by `check_exit_key_pressed`), `caught` is a location-tagged wrapped
unexpected error (the `Caught` variant produced by `.app_err()`).  Message and
location payloads are not modelled. -/
inductive AppError where
  | abort
  | caught
deriving Repr, DecidableEq

/-- One regular file as the walk observes it: its path string
(`to_string_lossy`), metadata (size and mtime seconds), the hex digest its
content hashes to, how many nonempty 8 KiB chunks `hash_file` reads before
end-of-file, and whether `open`, `metadata` and the chunk reads succeed. -/
structure DiskFile where
  file_name : String
  file_size : Nat
  modified : Nat
  digest : String
  chunks : Nat
  openOk : Bool
  metaOk : Bool
  readOk : Bool
deriving Repr, DecidableEq

/-- Lexicographic strict comparison of character lists, the order Rust's
byte-wise `str` comparison induces on (valid UTF-8) path strings.  Defined
structurally so that it evaluates by kernel reduction. -/
def charListLt : List Char → List Char → Bool
  | [], [] => false
  | [], _ :: _ => true
  | _ :: _, [] => false
  | a :: as, b :: bs => if a < b then true else if b < a then false else charListLt as bs

/-- Strict path-string comparison (`Ord::cmp` giving `Less`). -/
def strLt (a b : String) : Bool :=
  charListLt a.data b.data

/-- Non-strict path-string comparison (`Ord::cmp` giving `Less` or `Equal`). -/
def strLe (a b : String) : Bool :=
  !charListLt b.data a.data

/-- Key of the record at index `i` (out-of-range reads give the default
record; the scanner only probes in-range indices). -/
def keyAt (idx : List FileEntry) (i : Nat) : String :=
  (idx.getD i default).file_name

/-- The `slice::binary_search_by_key` loop over the half-open interval
`[left, right)`: compare the key at the midpoint with the target and narrow,
returning `ok` at the matching index or `error` at the insertion index.  The
first argument bounds the number of iterations (the loop runs at most
`right - left` times); it only makes the recursion structural and never
changes the result when it starts at least at `right - left`. -/
def bsGo (idx : List FileEntry) (key : String) : Nat → Nat → Nat → Except Nat Nat
  | 0, left, _right => .error left
  | fuel + 1, left, right =>
    if left < right then
      if strLt (keyAt idx (left + (right - left) / 2)) key then
        bsGo idx key fuel (left + (right - left) / 2 + 1) right
      else if strLt key (keyAt idx (left + (right - left) / 2)) then
        bsGo idx key fuel left (left + (right - left) / 2)
      else .ok (left + (right - left) / 2)
    else .error left

/-- `hash_data.binary_search_by_key(&&file_name, |entry| &entry.file_name)`. -/
def binary_search_by_key (idx : List FileEntry) (key : String) : Except Nat Nat :=
  bsGo idx key idx.length 0 idx.length

/-- The chunk loop of `hash_file`: each iteration first polls the cancellation
signal (`check_exit_key_pressed`), then performs one read (which may fail as an
I/O error), finishing with the digest after the read that returns 0 bytes. -/
def hash_file_go (polls : Nat → Bool) (readOk : Bool) (digest : String) :
    Nat → Nat → Except AppError (String × Nat)
  | 0, ctr =>
    if polls ctr then .error .abort
    else if readOk then .ok (digest, ctr + 1)
    else .error .caught
  | n + 1, ctr =>
    if polls ctr then .error .abort
    else if readOk then hash_file_go polls readOk digest n (ctr + 1)
    else .error .caught

/-- `hash_file`: stream the file through the hasher; aborting between chunks
discards the partial state, so the digest is produced only on a complete run.
The returned `Nat` is the advanced poll counter. -/
def hash_file (polls : Nat → Bool) (f : DiskFile) (ctr : Nat) :
    Except AppError (String × Nat) :=
  hash_file_go polls f.readOk f.digest f.chunks ctr

/-- In-place update `entry.hash = hash` through `get_mut` (a no-op when the
position is out of range, exactly as `get_mut` returning `None`). -/
def updateHash (idx : List FileEntry) (i : Nat) (h : String) : List FileEntry :=
  idx.set i { idx.getD i default with hash := h }

/-- The incremental-skip test: the binary search found the path and both the
stored size and the stored mtime equal the freshly read metadata. -/
def unchangedAt (idx : List FileEntry) (pos : Except Nat Nat) (f : DiskFile) : Bool :=
  match pos with
  | .ok i =>
    (idx.getD i default).file_size == f.file_size &&
      (idx.getD i default).modified == f.modified
  | .error _ => false

/-- State threaded through the walk: the mutable index, the number of
cancellation polls made so far, and the paths `hash_file` was invoked on (an
observation channel recording exactly where the code calls `hash_file`). -/
structure WalkState where
  idx : List FileEntry
  ctr : Nat
  hashed : List String
deriving Repr, DecidableEq

/-- The per-file loop at the bottom of `process_folder`:
open (failure: diagnostic, skip the file), metadata (failure: propagated via
`.app_err()?`, fatal), binary search, the incremental-skip test, `hash_file`
(failure: propagated, the index mutated so far is kept), then either the
in-place `entry.hash = hash` update or an insert at the failed search's
position.  The mutated state is returned alongside any propagated error,
mirroring the `&mut` index surviving an `Err` return. -/
def process_files (polls : Nat → Bool) : List DiskFile → WalkState → WalkState × Option AppError
  | [], s => (s, none)
  | f :: rest, s =>
    if f.openOk then
      if f.metaOk then
        if unchangedAt s.idx (binary_search_by_key s.idx f.file_name) f then
          process_files polls rest s
        else
          match hash_file polls f s.ctr with
          | .error e => ({ s with hashed := s.hashed ++ [f.file_name] }, some e)
          | .ok (h, ctr') =>
            match binary_search_by_key s.idx f.file_name with
            | .ok i =>
              process_files polls rest ⟨updateHash s.idx i h, ctr', s.hashed ++ [f.file_name]⟩
            | .error j =>
              process_files polls rest
                ⟨s.idx.insertIdx j ⟨f.file_name, f.file_size, h, f.modified⟩, ctr',
                  s.hashed ++ [f.file_name]⟩
      else (s, some .caught)
    else process_files polls rest s

/-- A directory tree as `read_dir` exposes it: a directory carries whether
opening it for enumeration succeeds and its entries; an entry is a
subdirectory, a regular file, or an entry that errors during enumeration
(reported and skipped). -/
inductive FsTree where
  | dir (readOk : Bool) (entries : List FsTree)
  | file (f : DiskFile)
  | broken

mutual

/-- Structural weight of a tree, used as the walk's termination measure. -/
def treeWeight : FsTree → Nat
  | .dir _ es => 1 + listWeight es
  | .file _ => 1
  | .broken => 1

/-- Total weight of a list of trees. -/
def listWeight : List FsTree → Nat
  | [] => 0
  | t :: ts => treeWeight t + listWeight ts

end

/-- The enumeration loop of `process_folder`: poll the cancellation signal per
entry (propagating an abort), classify each entry into the subdirectory list or
the file list in discovery order, and skip broken entries with a diagnostic.
On abort the partially built lists are dropped, exactly as the `?` does. -/
def classify (polls : Nat → Bool) : List FsTree → Nat → Except Nat (List FsTree × List DiskFile × Nat)
  | [], ctr => .ok ([], [], ctr)
  | t :: rest, ctr =>
    if polls ctr then .error (ctr + 1)
    else
      match classify polls rest (ctr + 1) with
      | .error c => .error c
      | .ok (subs, files, c) =>
        match t with
        | .dir rOk es => .ok (.dir rOk es :: subs, files, c)
        | .file f => .ok (subs, f :: files, c)
        | .broken => .ok (subs, files, c)

/-- `process_folder`: opening the directory fails (or the popped path is not a
directory) — diagnostic and zero children; otherwise enumerate and classify,
then run the per-file loop; any propagated error drops the subdirectory list
while keeping the mutated state. -/
def process_folder (polls : Nat → Bool) (t : FsTree) (s : WalkState) :
    WalkState × Option AppError × List FsTree :=
  match t with
  | .file _ => (s, none, [])
  | .broken => (s, none, [])
  | .dir rOk entries =>
    if rOk then
      match classify polls entries s.ctr with
      | .error c => ({ s with ctr := c }, some .abort, [])
      | .ok (subs, files, c) =>
        match process_files polls files { s with ctr := c } with
        | (s', none) => (s', none, subs)
        | (s', some e) => (s', some e, [])
    else (s, none, [])

theorem classify_subs_weight (polls : Nat → Bool) :
    ∀ (es : List FsTree) (ctr : Nat) (subs : List FsTree) (files : List DiskFile) (c : Nat),
      classify polls es ctr = .ok (subs, files, c) → listWeight subs ≤ listWeight es := by
  intro es
  induction es with
  | nil =>
    intro ctr subs files c h
    simp [classify] at h
    simp [h.1, listWeight]
  | cons t rest ih =>
    intro ctr subs files c h
    simp only [classify] at h
    by_cases hp : polls ctr
    · simp [hp] at h
    · simp only [hp, if_false] at h
      cases hrec : classify polls rest (ctr + 1) with
      | error c' => rw [hrec] at h; cases h
      | ok out =>
        obtain ⟨subs', files', c''⟩ := out
        rw [hrec] at h
        have hle := ih (ctr + 1) subs' files' c'' hrec
        cases t with
        | dir rOk es' =>
          simp at h
          obtain ⟨h1, h2, h3⟩ := h
          subst h1
          simp only [listWeight, treeWeight]
          omega
        | file f =>
          simp at h
          obtain ⟨h1, h2, h3⟩ := h
          subst h1
          simp only [listWeight, treeWeight]
          omega
        | broken =>
          simp at h
          obtain ⟨h1, h2, h3⟩ := h
          subst h1
          simp only [listWeight, treeWeight]
          omega

theorem process_folder_subs_weight (polls : Nat → Bool) (t : FsTree) (s : WalkState)
    (s' : WalkState) (e : Option AppError) (subs : List FsTree)
    (h : process_folder polls t s = (s', e, subs)) : listWeight subs < treeWeight t := by
  cases t with
  | file f =>
    simp [process_folder] at h
    rw [h.2.2]
    simp [treeWeight, listWeight]
  | broken =>
    simp [process_folder] at h
    rw [h.2.2]
    simp [treeWeight, listWeight]
  | dir rOk entries =>
    simp only [process_folder] at h
    by_cases hr : rOk
    · simp only [hr, if_true] at h
      cases hc : classify polls entries s.ctr with
      | error c =>
        rw [hc] at h
        simp at h
        rw [h.2.2]
        simp [treeWeight, listWeight]
      | ok out =>
        obtain ⟨subs', files, c⟩ := out
        rw [hc] at h
        have hw := classify_subs_weight polls entries s.ctr subs' files c hc
        cases hpf : process_files polls files { s with ctr := c } with
        | mk s'' e' =>
          simp only at h
          rw [hpf] at h
          cases e' with
          | none =>
            simp at h
            obtain ⟨h1, h2, h3⟩ := h
            subst h3
            simp only [treeWeight]
            omega
          | some err =>
            simp at h
            rw [h.2.2]
            simp [treeWeight, listWeight]
    · simp [hr] at h
      rw [h.2.2]
      simp [treeWeight, listWeight]

theorem listWeight_append (l₁ l₂ : List FsTree) :
    listWeight (l₁ ++ l₂) = listWeight l₁ + listWeight l₂ := by
  induction l₁ with
  | nil => simp [listWeight]
  | cons t ts ih => simp [listWeight, ih]; omega

theorem listWeight_reverse (l : List FsTree) : listWeight l.reverse = listWeight l := by
  induction l with
  | nil => rfl
  | cons t ts ih => simp [listWeight, List.reverse_cons, listWeight_append, ih]; omega

/-- The `scan_for_new_and_updated` driver loop: pop the pending-directory stack
(the head models the end of the `Vec`), process that directory, push its
subdirectory list (`Vec::append` puts them on top, so the last-discovered one
is popped next), and stop on an empty stack or a propagated error. -/
def walk (polls : Nat → Bool) : List FsTree → WalkState → WalkState × Option AppError
  | [], s => (s, none)
  | d :: stack, s =>
    match h : process_folder polls d s with
    | (s', none, subs) => walk polls (subs.reverse ++ stack) s'
    | (s', some e, _) => (s', some e)
termination_by stack _ => listWeight stack
decreasing_by
  have := process_folder_subs_weight polls d s s' none subs h
  simp [listWeight, listWeight_append, listWeight_reverse]
  omega

/-- Phase A (`scan_for_deleted` / `purge_old_files`): poll the cancellation
signal per record, keep exactly the records whose path still names a regular
file; an abort discards the partially built result and returns the error. -/
def scan_for_deleted (polls : Nat → Bool) (onDisk : String → Bool) :
    List FileEntry → Nat → Except AppError (List FileEntry × Nat)
  | [], ctr => .ok ([], ctr)
  | e :: rest, ctr =>
    if polls ctr then .error .abort
    else
      match scan_for_deleted polls onDisk rest (ctr + 1) with
      | .error err => .error err
      | .ok (kept, c) => .ok (if onDisk e.file_name then e :: kept else kept, c)

/-- `scan_folder_tree`: prune, then walk from the root.  An error in the prune
phase returns `(None, Some(err))` — the pruned partial index is dropped —
while any walk outcome returns `(Some(index-as-mutated), optional error)`. -/
def scan_folder_tree (polls : Nat → Bool) (onDisk : String → Bool)
    (data_file : List FileEntry) (root : FsTree) :
    Option (List FileEntry) × Option AppError :=
  match scan_for_deleted polls onDisk data_file 0 with
  | .error err => (none, some err)
  | .ok (pruned, ctr) =>
    match walk polls [root] ⟨pruned, ctr, []⟩ with
    | (s, err) => (some s.idx, err)

/-- Outcome of one driver-level scan pass: the index handed to
`save_hash_data` (`none` when the driver returned before reaching the save),
and the error surfaced to the operator, if any. -/
structure ScanPassOutcome where
  savedIndex : Option (List FileEntry)
  reportedError : Option AppError
deriving Repr, DecidableEq

/-- The `!args.skip` scan block of `main` (`main.rs` 79–106): a prune-phase
error prints it and returns — no save — while after the walk the mutated index
is always saved before the scan result is reported. -/
def run_scan (polls : Nat → Bool) (onDisk : String → Bool)
    (data_file : List FileEntry) (root : FsTree) : ScanPassOutcome :=
  match scan_folder_tree polls onDisk data_file root with
  | (result, err) => ⟨result, err⟩

/-- `Vec::is_sorted_by_key` on the path field: adjacent pairs compared with
non-strict `≤`. -/
def is_sorted_by_key : List FileEntry → Bool
  | [] => true
  | [_] => true
  | a :: b :: rest => strLe a.file_name b.file_name && is_sorted_by_key (b :: rest)

/-- Stable insertion of `a` into an already sorted list: `a` goes after every
element `b` with `le b a`, so elements comparing equal keep their original
relative order. -/
def insertIntoSorted {α : Type} (le : α → α → Bool) (a : α) : List α → List α
  | [] => [a]
  | b :: bs => if le b a then b :: insertIntoSorted le a bs else a :: b :: bs

/-- Stable sort by a total comparator.  A stable sort's output is uniquely
determined by the comparator, so this insertion sort computes exactly the
result of Rust's stable `slice::sort_by` (and a permissible result of the
unstable sort used for report groups). -/
def stableSortBy {α : Type} (le : α → α → Bool) (l : List α) : List α :=
  l.foldl (fun acc a => insertIntoSorted le a acc) []

/-- The normalization step of `load_current_hash_data` after deserialising the
snapshot: re-sort (stable, by path) only when the loaded order is violated. -/
def normalize_loaded (l : List FileEntry) : List FileEntry :=
  if is_sorted_by_key l then l
  else stableSortBy (fun a b => strLe a.file_name b.file_name) l

/-- `take(&mut file.hash)`: the record as it is pushed into its hash group,
with the digest moved out (replaced by the empty string). -/
def eraseHash (f : FileEntry) : FileEntry :=
  { f with hash := "" }

/-- `hash_index.entry(hash).or_insert(..).push(file)` on an association list
kept in first-insertion order (a deterministic stand-in for the `HashMap`,
which fixes group order only up to permutation). -/
def insertGroup (m : List (String × List FileEntry)) (h : String) (f : FileEntry) :
    List (String × List FileEntry) :=
  match m with
  | [] => [(h, [f])]
  | (k, g) :: rest => if k = h then (k, g ++ [f]) :: rest else (k, g) :: insertGroup rest h f

/-- Fold one index into the digest-to-records mapping. -/
def buildGroups (m : List (String × List FileEntry)) (l : List FileEntry) :
    List (String × List FileEntry) :=
  l.foldl (fun acc f => insertGroup acc f.hash (eraseHash f)) m

/-- `hash_group.first().map(|file| file.file_size).unwrap_or_default()`. -/
def repSize (g : List FileEntry) : Nat :=
  (g.head?.map (·.file_size)).getD 0

/-- `minimum.unwrap_or(ByteSize::Byte(1)).into()`. -/
def minimumBytes (minimum : Option ByteSize) : Nat :=
  (minimum.getD (ByteSize.Byte 1)).intoU64

/-- `duplicate_report`, reduced to the sequence of groups it prints: group the
concatenated records by digest, keep groups with more than one member, sort by
descending representative size, and drop groups below the minimum-size
threshold.  (The report's group order is determinized by the association list
and a stable sort; the code's `HashMap` iteration plus unstable sort fixes it
only up to permutation of equal-size groups.) -/
def duplicate_report_groups (data_file : List FileEntry)
    (other_data_file : Option (List FileEntry)) (minimum : Option ByteSize) :
    List (List FileEntry) :=
  let m := buildGroups (buildGroups [] data_file) (other_data_file.getD [])
  let hash_list := (m.map Prod.snd).filter fun g => decide (1 < g.length)
  let sorted := stableSortBy (fun g1 g2 => decide (repSize g2 ≤ repSize g1)) hash_list
  sorted.filter fun g => decide (minimumBytes minimum ≤ repSize g)

/-- `format_file_size`: fixed decimal buckets, truncating division. -/
def format_file_size (size : Nat) : Nat × String :=
  if size < 1000 then (size, "B")
  else if size < 1000000 then (size / 1000, "KB")
  else if size < 1000000000 then (size / 1000000, "MB")
  else if size < 1000000000000 then (size / 1000000000, "GB")
  else (size / 1000000000000, "TB")

/-- Association-list lookup by digest key: the proof-side view of the
grouping map. -/
def assocFind (h : String) : List (String × List FileEntry) → Option (List FileEntry)
  | [] => none
  | (k, g) :: rest => if k = h then some g else assocFind h rest

/-- The digest-equivalence class of `h` over a record list: all records whose
digest is `h`, in input order, each with the digest moved out exactly as the
grouping loop stores them. -/
def classOf (l : List FileEntry) (h : String) : List FileEntry :=
  (l.filter fun f => decide (f.hash = h)).map eraseHash

/-- The key sequence of the grouping map. -/
def groupKeys (m : List (String × List FileEntry)) : List String :=
  m.map Prod.fst

/-- The index invariant: strictly ascending, hence unique, path keys. -/
def IndexSorted (idx : List FileEntry) : Prop :=
  List.Pairwise (fun a b => strLt a.file_name b.file_name = true) idx

/-- Weak (non-strict) ascending order on path keys. -/
def IndexSortedLe (idx : List FileEntry) : Prop :=
  List.Pairwise (fun a b => strLe a.file_name b.file_name = true) idx

instance (idx : List FileEntry) : Decidable (IndexSorted idx) :=
  inferInstanceAs (Decidable (List.Pairwise _ idx))

instance (idx : List FileEntry) : Decidable (IndexSortedLe idx) :=
  inferInstanceAs (Decidable (List.Pairwise _ idx))

theorem charListLt_irrefl : ∀ l : List Char, charListLt l l = false
  | [] => rfl
  | a :: as => by simp [charListLt, charListLt_irrefl as]

theorem charListLt_trans :
    ∀ {l1 l2 l3 : List Char}, charListLt l1 l2 = true → charListLt l2 l3 = true →
      charListLt l1 l3 = true
  | [], [], _, h1, _ => by simp [charListLt] at h1
  | [], _ :: _, [], _, h2 => by simp [charListLt] at h2
  | [], _ :: _, _ :: _, _, _ => rfl
  | _ :: _, [], _, h1, _ => by simp [charListLt] at h1
  | _ :: _, _ :: _, [], _, h2 => by simp [charListLt] at h2
  | a :: as, b :: bs, c :: cs, h1, h2 => by
    simp only [charListLt] at h1 h2 ⊢
    by_cases hab : a < b
    · by_cases hbc : b < c
      · simp [lt_trans hab hbc]
      · rw [if_neg hbc] at h2
        by_cases hcb : c < b
        · rw [if_pos hcb] at h2; cases h2
        · have hbceq : b = c := le_antisymm (not_lt.mp hcb) (not_lt.mp hbc)
          subst hbceq
          simp [hab]
    · rw [if_neg hab] at h1
      by_cases hba : b < a
      · rw [if_pos hba] at h1; cases h1
      · have habeq : a = b := le_antisymm (not_lt.mp hba) (not_lt.mp hab)
        subst habeq
        simp only [if_neg hab] at h1 ⊢
        by_cases hac : a < c
        · simp [hac]
        · rw [if_neg hac] at h2 ⊢
          by_cases hca : c < a
          · rw [if_pos hca] at h2; cases h2
          · rw [if_neg hca] at h2 ⊢
            exact charListLt_trans h1 h2

theorem charListLt_eq_of_not :
    ∀ l1 l2 : List Char, charListLt l1 l2 = false → charListLt l2 l1 = false → l1 = l2
  | [], [], _, _ => rfl
  | [], _ :: _, h1, _ => by simp [charListLt] at h1
  | _ :: _, [], _, h2 => by simp [charListLt] at h2
  | a :: as, b :: bs, h1, h2 => by
    simp only [charListLt] at h1 h2
    by_cases hab : a < b
    · rw [if_pos hab] at h1; cases h1
    · by_cases hba : b < a
      · rw [if_pos hba] at h2; cases h2
      · have habeq : a = b := le_antisymm (not_lt.mp hba) (not_lt.mp hab)
        subst habeq
        simp only [if_neg hab] at h1 h2
        rw [charListLt_eq_of_not as bs h1 h2]

theorem strLt_irrefl (a : String) : strLt a a = false :=
  charListLt_irrefl _

theorem strLt_trans {a b c : String} (h1 : strLt a b = true) (h2 : strLt b c = true) :
    strLt a c = true :=
  charListLt_trans h1 h2

theorem strLt_eq_of_not {a b : String} (h1 : strLt a b = false) (h2 : strLt b a = false) :
    a = b :=
  String.ext (charListLt_eq_of_not _ _ h1 h2)

theorem strLt_asymm {a b : String} (h : strLt a b = true) : strLt b a = false := by
  cases hx : strLt b a with
  | false => rfl
  | true => have hr := strLt_trans h hx; rw [strLt_irrefl] at hr; cases hr

theorem strLt_ne {a b : String} (h : strLt a b = true) : a ≠ b := by
  intro he
  subst he
  rw [strLt_irrefl] at h
  cases h

theorem strLt_false_trans {a b c : String} (h1 : strLt b a = false) (h2 : strLt c b = false) :
    strLt c a = false := by
  cases hx : strLt c a with
  | false => rfl
  | true =>
    cases hbc : strLt b c with
    | true =>
      have hba := strLt_trans hbc hx
      rw [h1] at hba
      cases hba
    | false =>
      have hcb : b = c := strLt_eq_of_not hbc h2
      subst hcb
      rw [h1] at hx
      cases hx

theorem strLe_eq_not_lt (a b : String) : strLe a b = !strLt b a :=
  rfl

theorem strLe_trans {a b c : String} (h1 : strLe a b = true) (h2 : strLe b c = true) :
    strLe a c = true := by
  rw [strLe_eq_not_lt, Bool.not_eq_true'] at h1 h2 ⊢
  exact strLt_false_trans h1 h2

theorem strLe_total (a b : String) : strLe a b || strLe b a = true := by
  cases hx : strLt b a with
  | false => rw [strLe_eq_not_lt, hx]; rfl
  | true =>
    have hf := strLt_asymm hx
    rw [strLe_eq_not_lt a b, strLe_eq_not_lt b a, hx, hf]
    rfl

theorem strLt_of_le_ne {a b : String} (h1 : strLe a b = true) (h2 : a ≠ b) :
    strLt a b = true := by
  rw [strLe_eq_not_lt, Bool.not_eq_true'] at h1
  cases hx : strLt a b with
  | true => rfl
  | false => exact absurd (strLt_eq_of_not hx h1) h2

theorem keyAt_cons_zero (a : FileEntry) (l : List FileEntry) :
    keyAt (a :: l) 0 = a.file_name := by
  simp [keyAt]

theorem keyAt_cons_succ (a : FileEntry) (l : List FileEntry) (i : Nat) :
    keyAt (a :: l) (i + 1) = keyAt l i := by
  simp [keyAt]

theorem indexSorted_keyAt_lt {idx : List FileEntry} (hs : IndexSorted idx) {i j : Nat}
    (hij : i < j) (hj : j < idx.length) : strLt (keyAt idx i) (keyAt idx j) = true := by
  have hi : i < idx.length := lt_trans hij hj
  have hp := List.pairwise_iff_getElem.mp hs i j hi hj hij
  rw [keyAt, keyAt, List.getD_eq_getElem _ _ hi, List.getD_eq_getElem _ _ hj]
  exact hp

theorem bsGo_spec (idx : List FileEntry) (key : String) (hs : IndexSorted idx) :
    ∀ (fuel left right : Nat), right - left ≤ fuel → left ≤ right → right ≤ idx.length →
      (∀ i, i < left → strLt (keyAt idx i) key = true) →
      (∀ i, right ≤ i → i < idx.length → strLt key (keyAt idx i) = true) →
      (∀ m, bsGo idx key fuel left right = .ok m → m < idx.length ∧ keyAt idx m = key) ∧
      (∀ j, bsGo idx key fuel left right = .error j → j ≤ idx.length ∧
        (∀ i, i < j → strLt (keyAt idx i) key = true) ∧
        (∀ i, j ≤ i → i < idx.length → strLt key (keyAt idx i) = true)) := by
  intro fuel
  induction fuel with
  | zero =>
    intro left right hfuel hlr hrlen hlo hhi
    have hlr' : left = right := by omega
    subst hlr'
    constructor
    · intro m hm; simp [bsGo] at hm
    · intro j hj
      simp only [bsGo, Except.error.injEq] at hj
      subst hj
      exact ⟨by omega, hlo, hhi⟩
  | succ fuel ih =>
    intro left right hfuel hlr hrlen hlo hhi
    by_cases hlt : left < right
    · have hmid_lt : left + (right - left) / 2 < right := by omega
      have hmid_len : left + (right - left) / 2 < idx.length := by omega
      by_cases h1 : strLt (keyAt idx (left + (right - left) / 2)) key = true
      · have heq : bsGo idx key (fuel + 1) left right =
            bsGo idx key fuel (left + (right - left) / 2 + 1) right := by
          simp [bsGo, hlt, h1]
        rw [heq]
        apply ih (left + (right - left) / 2 + 1) right (by omega) (by omega) hrlen
        · intro i hi
          rcases Nat.lt_or_ge i (left + (right - left) / 2) with hc | hc
          · exact strLt_trans (indexSorted_keyAt_lt hs hc hmid_len) h1
          · have hieq : i = left + (right - left) / 2 := by omega
            subst hieq
            exact h1
        · exact hhi
      · by_cases h2 : strLt key (keyAt idx (left + (right - left) / 2)) = true
        · have heq : bsGo idx key (fuel + 1) left right =
              bsGo idx key fuel left (left + (right - left) / 2) := by
            simp [bsGo, hlt, h1, h2]
          rw [heq]
          apply ih left (left + (right - left) / 2) (by omega) (by omega) (by omega) hlo
          intro i hge hilen
          rcases Nat.lt_or_ge (left + (right - left) / 2) i with hc | hc
          · exact strLt_trans h2 (indexSorted_keyAt_lt hs hc hilen)
          · have hieq : i = left + (right - left) / 2 := by omega
            subst hieq
            exact h2
        · have heq : bsGo idx key (fuel + 1) left right =
              .ok (left + (right - left) / 2) := by
            simp [bsGo, hlt, h1, h2]
          constructor
          · intro m hm
            rw [heq] at hm
            have hmeq : left + (right - left) / 2 = m := by
              exact Except.ok.inj hm
            subst hmeq
            refine ⟨hmid_len, ?_⟩
            have h1' : strLt (keyAt idx (left + (right - left) / 2)) key = false := by
              simpa using h1
            have h2' : strLt key (keyAt idx (left + (right - left) / 2)) = false := by
              simpa using h2
            exact strLt_eq_of_not h1' h2'
          · intro j hj
            rw [heq] at hj
            cases hj
    · have hlr' : left = right := by omega
      subst hlr'
      constructor
      · intro m hm; simp [bsGo, hlt] at hm
      · intro j hj
        simp only [bsGo, if_neg hlt, Except.error.injEq] at hj
        subst hj
        exact ⟨by omega, hlo, hhi⟩

theorem binary_search_found {idx : List FileEntry} {key : String} {i : Nat}
    (hs : IndexSorted idx) (h : binary_search_by_key idx key = .ok i) :
    i < idx.length ∧ keyAt idx i = key := by
  have hv : ∀ i', i' < (0 : Nat) → strLt (keyAt idx i') key = true := by omega
  have hv2 : ∀ i', idx.length ≤ i' → i' < idx.length → strLt key (keyAt idx i') = true := by
    omega
  exact (bsGo_spec idx key hs idx.length 0 idx.length (by omega) (by omega) (le_refl _)
    hv hv2).1 i h

theorem binary_search_insert_pos {idx : List FileEntry} {key : String} {j : Nat}
    (hs : IndexSorted idx) (h : binary_search_by_key idx key = .error j) :
    j ≤ idx.length ∧
      (∀ i, i < j → strLt (keyAt idx i) key = true) ∧
      (∀ i, j ≤ i → i < idx.length → strLt key (keyAt idx i) = true) := by
  have hv : ∀ i', i' < (0 : Nat) → strLt (keyAt idx i') key = true := by omega
  have hv2 : ∀ i', idx.length ≤ i' → i' < idx.length → strLt key (keyAt idx i') = true := by
    omega
  exact (bsGo_spec idx key hs idx.length 0 idx.length (by omega) (by omega) (le_refl _)
    hv hv2).2 j h

theorem binary_search_not_found {idx : List FileEntry} {key : String} {j : Nat}
    (hs : IndexSorted idx) (h : binary_search_by_key idx key = .error j) :
    ∀ e ∈ idx, e.file_name ≠ key := by
  obtain ⟨hjlen, hlo, hhi⟩ := binary_search_insert_pos hs h
  intro e he
  obtain ⟨n, hn, hne⟩ := List.mem_iff_getElem.mp he
  have hkey : keyAt idx n = e.file_name := by
    rw [keyAt, List.getD_eq_getElem _ _ hn, hne]
  rcases Nat.lt_or_ge n j with hc | hc
  · have := hlo n hc
    rw [hkey] at this
    exact strLt_ne this
  · have := hhi n hc hn
    rw [hkey] at this
    exact fun he' => strLt_ne this he'.symm

theorem map_fileName_updateHash :
    ∀ (idx : List FileEntry) (i : Nat) (h : String),
      (updateHash idx i h).map FileEntry.file_name = idx.map FileEntry.file_name := by
  intro idx
  induction idx with
  | nil => intro i h; simp [updateHash]
  | cons a rest ih =>
    intro i h
    cases i with
    | zero => simp [updateHash]
    | succ i =>
      have hstep : updateHash (a :: rest) (i + 1) h = a :: updateHash rest i h := by
        simp [updateHash, List.set]
      rw [hstep]
      simp [ih i h]

theorem indexSorted_iff_keys (idx : List FileEntry) :
    IndexSorted idx ↔
      List.Pairwise (fun a b => strLt a b = true) (idx.map FileEntry.file_name) := by
  rw [IndexSorted, List.pairwise_map]

theorem indexSorted_updateHash {idx : List FileEntry} (hs : IndexSorted idx) (i : Nat)
    (h : String) : IndexSorted (updateHash idx i h) := by
  rw [indexSorted_iff_keys, map_fileName_updateHash, ← indexSorted_iff_keys]
  exact hs

theorem indexSorted_insertIdx :
    ∀ (j : Nat) (idx : List FileEntry) (e : FileEntry), IndexSorted idx → j ≤ idx.length →
      (∀ i, i < j → strLt (keyAt idx i) e.file_name = true) →
      (∀ i, j ≤ i → i < idx.length → strLt e.file_name (keyAt idx i) = true) →
      IndexSorted (idx.insertIdx j e) := by
  intro j
  induction j with
  | zero =>
    intro idx e hs hj hlo hhi
    rw [List.insertIdx_zero]
    rw [IndexSorted, List.pairwise_cons]
    refine ⟨?_, hs⟩
    intro b hb
    obtain ⟨n, hn, hne⟩ := List.mem_iff_getElem.mp hb
    have := hhi n (by omega) hn
    rw [keyAt, List.getD_eq_getElem _ _ hn, hne] at this
    exact this
  | succ j ih =>
    intro idx e hs hj hlo hhi
    cases idx with
    | nil => simp at hj
    | cons a rest =>
      rw [List.insertIdx_succ_cons]
      rw [IndexSorted, List.pairwise_cons]
      rw [IndexSorted, List.pairwise_cons] at hs
      obtain ⟨hhead, htail⟩ := hs
      have hjlen : j ≤ rest.length := by simpa using hj
      constructor
      · intro b hb
        rcases (List.mem_insertIdx hjlen).mp hb with hbe | hbr
        · subst hbe
          have := hlo 0 (by omega)
          rw [keyAt_cons_zero] at this
          exact this
        · exact hhead b hbr
      · apply ih rest e htail hjlen
        · intro i hi
          have := hlo (i + 1) (by omega)
          rw [keyAt_cons_succ] at this
          exact this
        · intro i h1 h2
          have := hhi (i + 1) (by omega) (by simpa using Nat.succ_lt_succ h2)
          rw [keyAt_cons_succ] at this
          exact this

theorem process_files_sorted (polls : Nat → Bool) :
    ∀ (fs : List DiskFile) (s : WalkState), IndexSorted s.idx →
      IndexSorted (process_files polls fs s).1.idx := by
  intro fs
  induction fs with
  | nil =>
    intro s hs
    simpa [process_files] using hs
  | cons f rest ih =>
    intro s hs
    simp only [process_files]
    by_cases ho : f.openOk = true
    · simp only [ho, if_true]
      by_cases hm : f.metaOk = true
      · simp only [hm, if_true]
        by_cases hu : unchangedAt s.idx (binary_search_by_key s.idx f.file_name) f = true
        · simp only [hu, if_true]
          exact ih s hs
        · simp only [hu, if_false]
          cases hh : hash_file polls f s.ctr with
          | error e => simpa using hs
          | ok out =>
            obtain ⟨hsh, ctr'⟩ := out
            cases hb : binary_search_by_key s.idx f.file_name with
            | ok i => exact ih _ (indexSorted_updateHash hs i hsh)
            | error j =>
              apply ih
              obtain ⟨hj, hlo, hhi⟩ := binary_search_insert_pos hs hb
              exact indexSorted_insertIdx j s.idx _ hs hj hlo hhi
      · simp only [hm, if_false]
        simpa using hs
    · simp only [ho, if_false]
      exact ih s hs

theorem scan_for_deleted_sublist (polls : Nat → Bool) (onDisk : String → Bool) :
    ∀ (l : List FileEntry) (ctr : Nat) (out : List FileEntry × Nat),
      scan_for_deleted polls onDisk l ctr = .ok out → out.1.Sublist l := by
  intro l
  induction l with
  | nil =>
    intro ctr out h
    simp only [scan_for_deleted, Except.ok.injEq] at h
    rw [← h]
  | cons e rest ih =>
    intro ctr out h
    simp only [scan_for_deleted] at h
    by_cases hp : polls ctr = true
    · rw [if_pos hp] at h; cases h
    · rw [if_neg hp] at h
      cases hrec : scan_for_deleted polls onDisk rest (ctr + 1) with
      | error err => rw [hrec] at h; cases h
      | ok out' =>
        obtain ⟨kept, c⟩ := out'
        rw [hrec] at h
        simp only [Except.ok.injEq] at h
        have hsub := ih (ctr + 1) (kept, c) hrec
        rw [← h]
        by_cases hd : onDisk e.file_name = true
        · rw [if_pos hd]
          exact List.Sublist.cons₂ e hsub
        · rw [if_neg hd]
          exact List.Sublist.cons e hsub

theorem scan_for_deleted_sorted (polls : Nat → Bool) (onDisk : String → Bool)
    {l : List FileEntry} {ctr : Nat} {out : List FileEntry × Nat}
    (h : scan_for_deleted polls onDisk l ctr = .ok out) (hs : IndexSorted l) :
    IndexSorted out.1 :=
  List.Pairwise.sublist (scan_for_deleted_sublist polls onDisk l ctr out h) hs

theorem process_folder_sorted (polls : Nat → Bool) (t : FsTree) (s : WalkState)
    (hs : IndexSorted s.idx) : IndexSorted (process_folder polls t s).1.idx := by
  cases t with
  | file f => simpa [process_folder] using hs
  | broken => simpa [process_folder] using hs
  | dir rOk entries =>
    simp only [process_folder]
    by_cases hr : rOk = true
    · simp only [hr, if_true]
      cases hc : classify polls entries s.ctr with
      | error c => simpa using hs
      | ok out =>
        obtain ⟨subs, files, c⟩ := out
        have hpf := process_files_sorted polls files { s with ctr := c } hs
        cases hres : process_files polls files { s with ctr := c } with
        | mk s' e =>
          rw [hres] at hpf
          simp only [hres]
          cases e with
          | none => simpa using hpf
          | some err => simpa using hpf
    · simp only [hr, if_false]
      simpa using hs

theorem treeWeight_pos (t : FsTree) : 1 ≤ treeWeight t := by
  cases t <;> simp [treeWeight]

theorem walk_sorted_aux (polls : Nat → Bool) :
    ∀ (n : Nat) (stack : List FsTree) (s : WalkState), listWeight stack ≤ n →
      IndexSorted s.idx → IndexSorted (walk polls stack s).1.idx := by
  intro n
  induction n with
  | zero =>
    intro stack s hw hs
    cases stack with
    | nil => simpa [walk] using hs
    | cons d rest =>
      exfalso
      have := treeWeight_pos d
      simp [listWeight] at hw
      omega
  | succ n ih =>
    intro stack s hw hs
    cases stack with
    | nil => simpa [walk] using hs
    | cons d rest =>
      rw [walk]
      split
      · rename_i s' subs heq
        have hsub := process_folder_subs_weight polls d s s' none subs heq
        have hsorted : IndexSorted s'.idx := by
          have := process_folder_sorted polls d s hs
          rw [heq] at this
          exact this
        apply ih (subs.reverse ++ rest) s' ?_ hsorted
        rw [listWeight_append, listWeight_reverse]
        simp [listWeight] at hw
        omega
      · rename_i s' e x heq
        have hsorted : IndexSorted s'.idx := by
          have := process_folder_sorted polls d s hs
          rw [heq] at this
          exact this
        simpa using hsorted

theorem walk_sorted (polls : Nat → Bool) (stack : List FsTree) (s : WalkState)
    (hs : IndexSorted s.idx) : IndexSorted (walk polls stack s).1.idx :=
  walk_sorted_aux polls (listWeight stack) stack s (le_refl _) hs

theorem mem_insertIntoSorted {α : Type} (le : α → α → Bool) (a x : α) :
    ∀ l, x ∈ insertIntoSorted le a l ↔ x = a ∨ x ∈ l := by
  intro l
  induction l with
  | nil => simp [insertIntoSorted]
  | cons b bs ih =>
    simp only [insertIntoSorted]
    by_cases h : le b a = true
    · rw [if_pos h]
      simp only [List.mem_cons, ih]
      tauto
    · rw [if_neg h]
      simp only [List.mem_cons]

theorem insertIntoSorted_pairwise {α : Type} (le : α → α → Bool)
    (htrans : ∀ x y z, le x y = true → le y z = true → le x z = true)
    (htotal : ∀ x y, le x y || le y x = true) (a : α) :
    ∀ l, List.Pairwise (fun x y => le x y = true) l →
      List.Pairwise (fun x y => le x y = true) (insertIntoSorted le a l) := by
  intro l
  induction l with
  | nil =>
    intro _
    simp [insertIntoSorted]
  | cons b bs ih =>
    intro hp
    rw [List.pairwise_cons] at hp
    obtain ⟨hhead, htail⟩ := hp
    simp only [insertIntoSorted]
    by_cases h : le b a = true
    · rw [if_pos h]
      rw [List.pairwise_cons]
      constructor
      · intro x hx
        rcases (mem_insertIntoSorted le a x bs).mp hx with he | hm
        · subst he; exact h
        · exact hhead x hm
      · exact ih htail
    · rw [if_neg h]
      rw [List.pairwise_cons]
      have hab : le a b = true := by
        have ht := htotal a b
        cases hx2 : le a b with
        | true => rfl
        | false =>
          rw [hx2] at ht
          simp at ht
          exact absurd ht h
      constructor
      · intro x hx
        rcases List.mem_cons.mp hx with he | hm
        · subst he; exact hab
        · exact htrans a b x hab (hhead x hm)
      · rw [List.pairwise_cons]
        exact ⟨hhead, htail⟩

theorem stableSortBy_pairwise_aux {α : Type} (le : α → α → Bool)
    (htrans : ∀ x y z, le x y = true → le y z = true → le x z = true)
    (htotal : ∀ x y, le x y || le y x = true) :
    ∀ (l acc : List α), List.Pairwise (fun x y => le x y = true) acc →
      List.Pairwise (fun x y => le x y = true)
        (l.foldl (fun acc a => insertIntoSorted le a acc) acc) := by
  intro l
  induction l with
  | nil => intro acc hacc; simpa using hacc
  | cons a rest ih =>
    intro acc hacc
    exact ih (insertIntoSorted le a acc)
      (insertIntoSorted_pairwise le htrans htotal a acc hacc)

theorem stableSortBy_pairwise {α : Type} (le : α → α → Bool)
    (htrans : ∀ x y z, le x y = true → le y z = true → le x z = true)
    (htotal : ∀ x y, le x y || le y x = true) (l : List α) :
    List.Pairwise (fun x y => le x y = true) (stableSortBy le l) :=
  stableSortBy_pairwise_aux le htrans htotal l [] (by simp)

theorem insertIntoSorted_perm {α : Type} (le : α → α → Bool) (a : α) :
    ∀ l, (insertIntoSorted le a l).Perm (a :: l) := by
  intro l
  induction l with
  | nil => simp [insertIntoSorted]
  | cons b bs ih =>
    simp only [insertIntoSorted]
    by_cases h : le b a = true
    · rw [if_pos h]
      exact List.Perm.trans (List.Perm.cons b ih) (List.Perm.swap a b bs)
    · rw [if_neg h]

theorem stableSortBy_perm_aux {α : Type} (le : α → α → Bool) :
    ∀ (l acc : List α),
      (l.foldl (fun acc a => insertIntoSorted le a acc) acc).Perm (acc ++ l) := by
  intro l
  induction l with
  | nil => intro acc; simp
  | cons a rest ih =>
    intro acc
    refine List.Perm.trans (ih (insertIntoSorted le a acc)) ?_
    refine List.Perm.trans ((insertIntoSorted_perm le a acc).append_right rest) ?_
    exact List.perm_middle.symm

theorem stableSortBy_perm {α : Type} (le : α → α → Bool) (l : List α) :
    (stableSortBy le l).Perm l := by
  have h := stableSortBy_perm_aux le l []
  simpa [stableSortBy] using h

theorem is_sorted_by_key_pairwise : ∀ l, is_sorted_by_key l = true → IndexSortedLe l
  | [], _ => by simp [IndexSortedLe]
  | [a], _ => by simp [IndexSortedLe]
  | a :: b :: rest, h => by
    simp only [is_sorted_by_key, Bool.and_eq_true] at h
    obtain ⟨hab, hrest⟩ := h
    have ih := is_sorted_by_key_pairwise (b :: rest) hrest
    rw [IndexSortedLe, List.pairwise_cons]
    refine ⟨?_, ih⟩
    intro x hx
    rcases List.mem_cons.mp hx with he | hm
    · subst he; exact hab
    · rw [IndexSortedLe, List.pairwise_cons] at ih
      exact strLe_trans hab (ih.1 x hm)

theorem normalize_loaded_sortedLe (l : List FileEntry) :
    IndexSortedLe (normalize_loaded l) := by
  rw [normalize_loaded]
  by_cases h : is_sorted_by_key l = true
  · rw [if_pos h]
    exact is_sorted_by_key_pairwise l h
  · rw [if_neg h]
    exact stableSortBy_pairwise (fun a b : FileEntry => strLe a.file_name b.file_name)
      (fun x y z hxy hyz => strLe_trans hxy hyz)
      (fun x y => strLe_total _ _) l

theorem normalize_loaded_perm (l : List FileEntry) : (normalize_loaded l).Perm l := by
  rw [normalize_loaded]
  by_cases h : is_sorted_by_key l = true
  · rw [if_pos h]
  · rw [if_neg h]
    exact stableSortBy_perm _ l

theorem indexSorted_of_le_nodup {l : List FileEntry} (hle : IndexSortedLe l)
    (hnd : (l.map FileEntry.file_name).Nodup) : IndexSorted l := by
  rw [IndexSorted]
  rw [IndexSortedLe] at hle
  have hnd' : List.Pairwise (fun a b : FileEntry => a.file_name ≠ b.file_name) l :=
    List.pairwise_map.mp hnd
  exact (hle.and hnd').imp fun hab => strLt_of_le_ne hab.1 hab.2

theorem normalize_loaded_sorted_of_nodup {l : List FileEntry}
    (hnd : (l.map FileEntry.file_name).Nodup) : IndexSorted (normalize_loaded l) := by
  apply indexSorted_of_le_nodup (normalize_loaded_sortedLe l)
  exact (List.Perm.nodup_iff ((normalize_loaded_perm l).map FileEntry.file_name)).mpr hnd

/-- C6 counterexample: the claim's unconditional invariant fails at load time.
Loading a persisted snapshot holding two records with the same path "a" leaves
the index NOT strictly ascending and unique by path: the load-time
normalisation only re-sorts (with a non-strict comparator) and cannot remove
duplicates, so "loading re-sorts a snapshot that violates the order" does not
establish the claimed strict invariant. -/
theorem load_duplicate_paths_not_strict :
    ¬ IndexSorted (normalize_loaded [⟨"a", 0, "h", 0⟩, ⟨"a", 0, "h", 0⟩]) := by
  decide

/-- C6 (amended): loading guarantees weak (non-strict) ascending path order,
and the strict unique-path order exactly when the snapshot has no duplicate
paths; from a strictly sorted index, pruning, the per-file loop (in-place
updates and inserts at the failed binary search's position) and the whole walk
each preserve strict order with no re-sorting; and on a strictly sorted index
binary search by path is valid: a hit returns the index of the searched key
and a miss returns a position whose insertion keeps the order, with the key
absent from the index. -/
theorem index_order_invariants :
    (∀ l : List FileEntry, IndexSortedLe (normalize_loaded l)) ∧
    (∀ l : List FileEntry, (l.map FileEntry.file_name).Nodup →
      IndexSorted (normalize_loaded l)) ∧
    (∀ (polls : Nat → Bool) (onDisk : String → Bool) (l : List FileEntry) (ctr : Nat)
        (out : List FileEntry × Nat),
      scan_for_deleted polls onDisk l ctr = .ok out → IndexSorted l →
        IndexSorted out.1) ∧
    (∀ (polls : Nat → Bool) (fs : List DiskFile) (s : WalkState),
      IndexSorted s.idx → IndexSorted (process_files polls fs s).1.idx) ∧
    (∀ (polls : Nat → Bool) (stack : List FsTree) (s : WalkState),
      IndexSorted s.idx → IndexSorted (walk polls stack s).1.idx) ∧
    (∀ (idx : List FileEntry) (key : String) (i : Nat), IndexSorted idx →
      binary_search_by_key idx key = .ok i → i < idx.length ∧ keyAt idx i = key) ∧
    (∀ (idx : List FileEntry) (e : FileEntry) (j : Nat), IndexSorted idx →
      binary_search_by_key idx e.file_name = .error j →
      IndexSorted (idx.insertIdx j e) ∧ ∀ x ∈ idx, x.file_name ≠ e.file_name) := by
  have h7 : ∀ (idx : List FileEntry) (e : FileEntry) (j : Nat), IndexSorted idx →
      binary_search_by_key idx e.file_name = .error j →
      IndexSorted (idx.insertIdx j e) ∧ ∀ x ∈ idx, x.file_name ≠ e.file_name := by
    intro idx e j hs h
    obtain ⟨hj, hlo, hhi⟩ := binary_search_insert_pos hs h
    exact ⟨indexSorted_insertIdx j idx e hs hj hlo hhi, binary_search_not_found hs h⟩
  exact ⟨normalize_loaded_sortedLe,
    fun l hnd => normalize_loaded_sorted_of_nodup hnd,
    fun polls onDisk l ctr out h hs => scan_for_deleted_sorted polls onDisk h hs,
    process_files_sorted, walk_sorted,
    fun idx key i hs h => binary_search_found hs h, h7⟩

/-- C6 witness: the amended invariants applied at concrete inputs. -/
theorem index_order_invariants_witness :
    IndexSorted (normalize_loaded [⟨"b", 0, "h", 0⟩, ⟨"a", 0, "j", 0⟩]) ∧
    IndexSorted (walk (fun _ => false)
      [FsTree.dir true [FsTree.file ⟨"c", 1, 1, "d", 0, true, true, true⟩]]
      ⟨[⟨"a", 1, "h", 1⟩], 0, []⟩).1.idx ∧
    IndexSorted (process_files (fun _ => false)
      [⟨"b", 2, 9, "n", 1, true, true, true⟩] ⟨[⟨"a", 1, "h", 1⟩], 0, []⟩).1.idx :=
  ⟨index_order_invariants.2.1 _ (by decide),
   index_order_invariants.2.2.2.2.1 _ _ _ (by decide),
   index_order_invariants.2.2.2.1 _ _ _ (by decide)⟩

theorem process_files_append (polls : Nat → Bool) :
    ∀ (l₁ l₂ : List DiskFile) (s : WalkState),
      process_files polls (l₁ ++ l₂) s =
        match process_files polls l₁ s with
        | (s₁, none) => process_files polls l₂ s₁
        | (s₁, some e) => (s₁, some e) := by
  intro l₁
  induction l₁ with
  | nil => intro l₂ s; simp [process_files]
  | cons f rest ih =>
    intro l₂ s
    simp only [List.cons_append, process_files]
    by_cases ho : f.openOk = true
    · simp only [ho, if_true]
      by_cases hm : f.metaOk = true
      · simp only [hm, if_true]
        by_cases hu : unchangedAt s.idx (binary_search_by_key s.idx f.file_name) f = true
        · simp only [hu, if_true]
          exact ih l₂ s
        · simp only [hu, if_false]
          cases hh : hash_file polls f s.ctr with
          | error e => rfl
          | ok out =>
            obtain ⟨hsh, ctr'⟩ := out
            cases hb : binary_search_by_key s.idx f.file_name with
            | ok i => exact ih l₂ _
            | error j => exact ih l₂ _
      · simp [hm]
    · simp only [ho, if_false]
      exact ih l₂ s

/-- C2: concrete failing input for the in-place update.  Stored record
(path "b", size 1, digest "old", mtime 5); on-disk file (path "b", size 2,
mtime 9, content hashing to "new").  The size/mtime mismatch forces a re-hash,
but the update writes only `entry.hash`: the record keeps the stale
`file_size = 1` and `modified = 5` instead of the freshly read 2 and 9. -/
theorem update_keeps_stale_metadata :
    process_files (fun _ => false) [⟨"b", 2, 9, "new", 1, true, true, true⟩]
        ⟨[⟨"b", 1, "old", 5⟩], 0, []⟩ =
      (⟨[⟨"b", 1, "new", 5⟩], 2, ["b"]⟩, none) := by
  decide

/-- C3: when the binary search finds the file's path and the stored size and
stored mtime both equal the freshly read metadata, the per-file loop skips
hashing entirely — the step records no `hash_file` invocation — and passes the
index through completely unchanged (digest included), for every content digest
the file might now hash to. -/
theorem skip_on_matching_metadata (polls : Nat → Bool) (f : DiskFile)
    (rest : List DiskFile) (s : WalkState) (i : Nat)
    (hopen : f.openOk = true) (hmeta : f.metaOk = true)
    (hfound : binary_search_by_key s.idx f.file_name = .ok i)
    (hsize : (s.idx.getD i default).file_size = f.file_size)
    (hmtime : (s.idx.getD i default).modified = f.modified) :
    process_files polls (f :: rest) s = process_files polls rest s := by
  have hu : unchangedAt s.idx (binary_search_by_key s.idx f.file_name) f = true := by
    rw [hfound]
    simp only [unchangedAt, Bool.and_eq_true, beq_iff_eq]
    exact ⟨hsize, hmtime⟩
  simp only [process_files, hopen, if_true, hmeta, hu]

/-- C3 witness: a record (size 7, mtime 5) matching the on-disk metadata is
skipped even though the content would now hash to a different digest. -/
theorem skip_on_matching_metadata_witness :
    process_files (fun _ => false) [⟨"b", 7, 5, "DIFFERENT", 9, true, true, true⟩]
        ⟨[⟨"b", 7, "old", 5⟩], 0, []⟩ =
      process_files (fun _ => false) [] ⟨[⟨"b", 7, "old", 5⟩], 0, []⟩ :=
  skip_on_matching_metadata (fun _ => false) _ [] _ 0 (by decide) (by decide)
    (by decide) (by decide) (by decide)

/-- C4: if cancellation is observed inside `hash_file` for file N (the files
fs₁ before it having completed without error), the pass stops with the
distinguished abort condition — which is not the wrapped `caught` failure —
the returned index is exactly the one mutated by the earlier files, and file
N's record is neither updated nor inserted (no partial digest is stored; only
the invocation log records the attempt). -/
theorem abort_during_hash_preserves_prior_work (polls : Nat → Bool)
    (fs₁ : List DiskFile) (f : DiskFile) (fs₂ : List DiskFile) (s s₁ : WalkState)
    (h₁ : process_files polls fs₁ s = (s₁, none))
    (hopen : f.openOk = true) (hmeta : f.metaOk = true)
    (hstale : unchangedAt s₁.idx (binary_search_by_key s₁.idx f.file_name) f = false)
    (habort : hash_file polls f s₁.ctr = .error AppError.abort) :
    process_files polls (fs₁ ++ f :: fs₂) s =
      ({ s₁ with hashed := s₁.hashed ++ [f.file_name] }, some AppError.abort) ∧
    AppError.abort ≠ AppError.caught := by
  refine ⟨?_, by decide⟩
  rw [process_files_append polls fs₁ (f :: fs₂) s, h₁]
  simp only [process_files, hopen, if_true, hmeta, hstale, Bool.false_eq_true, if_false,
    habort]

/-- C4 witness: the signal fires at the third poll, which lands inside the
hashing of the second file; the first file's freshly inserted record is
retained and the second file is absent from the returned index. -/
theorem abort_during_hash_preserves_prior_work_witness :
    process_files (fun n => decide (2 ≤ n))
        ([⟨"a", 1, 1, "d0", 0, true, true, true⟩] ++
          ⟨"b", 1, 1, "db", 3, true, true, true⟩ :: [])
        ⟨[], 0, []⟩ =
      (⟨[⟨"a", 1, "d0", 1⟩], 1, ["a", "b"]⟩, some AppError.abort) ∧
    AppError.abort ≠ AppError.caught :=
  abort_during_hash_preserves_prior_work (fun n => decide (2 ≤ n))
    [⟨"a", 1, 1, "d0", 0, true, true, true⟩] ⟨"b", 1, 1, "db", 3, true, true, true⟩ []
    ⟨[], 0, []⟩ ⟨[⟨"a", 1, "d0", 1⟩], 1, ["a"]⟩
    (by decide) (by decide) (by decide) (by decide) (by decide)

/-- C5 counterexample: file "a" opens but its metadata read fails, with a
fresh file "b" next in the same directory.  The pass aborts at once with the
wrapped fatal error: no diagnostic-and-skip, and "b" is never processed (the
index stays empty), contradicting the claim that the scan continues with the
next file. -/
theorem metadata_failure_aborts_pass_cex :
    process_files (fun _ => false)
        [⟨"a", 1, 1, "da", 0, true, false, true⟩, ⟨"b", 1, 1, "db", 0, true, true, true⟩]
        ⟨[], 0, []⟩ =
      (⟨[], 0, []⟩, some AppError.caught) := by
  decide

/-- C5 (amended): a metadata-read failure (on a file that opened successfully)
is fatal to the pass: the wrapped `caught` error propagates immediately, the
state as mutated by the earlier files is returned untouched, and no later file
is processed.  Only the file-open failure is the per-file
diagnostic-and-continue case. -/
theorem metadata_failure_fatal (polls : Nat → Bool) (fs₁ : List DiskFile) (f : DiskFile)
    (fs₂ : List DiskFile) (s s₁ : WalkState)
    (h₁ : process_files polls fs₁ s = (s₁, none))
    (hopen : f.openOk = true) (hmeta : f.metaOk = false) :
    process_files polls (fs₁ ++ f :: fs₂) s = (s₁, some AppError.caught) := by
  rw [process_files_append polls fs₁ (f :: fs₂) s, h₁]
  simp [process_files, hopen, hmeta]

/-- C5 witness: the amended fatal-metadata behaviour at a concrete input with
one successfully indexed earlier file. -/
theorem metadata_failure_fatal_witness :
    process_files (fun _ => false)
        ([⟨"a", 1, 1, "d0", 0, true, true, true⟩] ++
          ⟨"m", 1, 1, "dm", 0, true, false, true⟩ :: [])
        ⟨[], 0, []⟩ =
      (⟨[⟨"a", 1, "d0", 1⟩], 1, ["a"]⟩, some AppError.caught) :=
  metadata_failure_fatal (fun _ => false) [⟨"a", 1, 1, "d0", 0, true, true, true⟩]
    ⟨"m", 1, 1, "dm", 0, true, false, true⟩ [] ⟨[], 0, []⟩ ⟨[⟨"a", 1, "d0", 1⟩], 1, ["a"]⟩
    (by decide) (by decide) (by decide)

/-- C1 counterexample: with a nonempty loaded index and cancellation pending
from the first poll, the abort is observed during the prune phase.
`scan_folder_tree` returns `(none, abort)` — the pruned partial index is
discarded, not returned — and the driver surfaces the error without reaching
the save (`savedIndex = none`), contradicting the claim that a save of the
pruned partial index is attempted. -/
theorem prune_abort_returns_no_index :
    scan_folder_tree (fun _ => true) (fun _ => true) [⟨"a", 1, "h", 2⟩]
        (FsTree.dir true []) = (none, some AppError.abort) ∧
    run_scan (fun _ => true) (fun _ => true) [⟨"a", 1, "h", 2⟩] (FsTree.dir true []) =
      ⟨none, some AppError.abort⟩ := by
  decide

/-- C1 (amended): whenever the prune phase completes, the pass returns the
index exactly as mutated by the walk — whatever the walk's outcome: success,
cancellation, or fatal error — and the driver hands that index to the save
before reporting the walk's error; but when the prune phase itself fails, no
index is returned, no save is attempted, and only the error is surfaced. -/
theorem scan_pass_returns_index_after_prune :
    (∀ (polls : Nat → Bool) (onDisk : String → Bool) (data_file : List FileEntry)
        (root : FsTree) (pruned : List FileEntry) (ctr : Nat),
      scan_for_deleted polls onDisk data_file 0 = .ok (pruned, ctr) →
      scan_folder_tree polls onDisk data_file root =
        (some (walk polls [root] ⟨pruned, ctr, []⟩).1.idx,
          (walk polls [root] ⟨pruned, ctr, []⟩).2) ∧
      run_scan polls onDisk data_file root =
        { savedIndex := some (walk polls [root] ⟨pruned, ctr, []⟩).1.idx,
          reportedError := (walk polls [root] ⟨pruned, ctr, []⟩).2 }) ∧
    (∀ (polls : Nat → Bool) (onDisk : String → Bool) (data_file : List FileEntry)
        (root : FsTree) (err : AppError),
      scan_for_deleted polls onDisk data_file 0 = .error err →
      run_scan polls onDisk data_file root =
        { savedIndex := none, reportedError := some err }) := by
  constructor
  · intro polls onDisk data_file root pruned ctr h
    have hs : scan_folder_tree polls onDisk data_file root =
        (some (walk polls [root] ⟨pruned, ctr, []⟩).1.idx,
          (walk polls [root] ⟨pruned, ctr, []⟩).2) := by
      rw [scan_folder_tree, h]
    refine ⟨hs, ?_⟩
    rw [run_scan, hs]
  · intro polls onDisk data_file root err h
    rw [run_scan, scan_folder_tree, h]

/-- C1 witness: the amended behaviour at a concrete input whose only record is
pruned away (its path is gone from disk) with no cancellation pending. -/
theorem scan_pass_returns_index_after_prune_witness :
    scan_folder_tree (fun _ => false) (fun _ => false) [⟨"a", 1, "h", 2⟩]
        (FsTree.dir true []) =
      (some (walk (fun _ => false) [FsTree.dir true []] ⟨[], 1, []⟩).1.idx,
        (walk (fun _ => false) [FsTree.dir true []] ⟨[], 1, []⟩).2) ∧
    run_scan (fun _ => false) (fun _ => false) [⟨"a", 1, "h", 2⟩] (FsTree.dir true []) =
      { savedIndex := some (walk (fun _ => false) [FsTree.dir true []] ⟨[], 1, []⟩).1.idx,
        reportedError := (walk (fun _ => false) [FsTree.dir true []] ⟨[], 1, []⟩).2 } :=
  scan_pass_returns_index_after_prune.1 (fun _ => false) (fun _ => false)
    [⟨"a", 1, "h", 2⟩] (FsTree.dir true []) [] 1 (by decide)

theorem parse_u64_eq_some {s : List Char} {v : Nat} :
    parse_u64 s = some v ↔
      s ≠ [] ∧ s.all Char.isDigit = true ∧ digitsVal s < U64_MOD ∧ digitsVal s = v := by
  rw [parse_u64]
  by_cases h : s ≠ [] ∧ s.all Char.isDigit = true ∧ digitsVal s < U64_MOD
  · rw [if_pos h]
    simp only [Option.some.injEq]
    constructor
    · intro hv
      exact ⟨h.1, h.2.1, h.2.2, hv⟩
    · intro hv
      exact hv.2.2.2
  · rw [if_neg h]
    constructor
    · intro hc; cases hc
    · intro hv
      exact absurd ⟨hv.1, hv.2.1, hv.2.2.1⟩ h

theorem stripSuffix_eq_some {s suf d : List Char} :
    stripSuffix s suf = some d ↔ s = d ++ suf := by
  rw [stripSuffix]
  by_cases h : suf.length ≤ s.length ∧ s.drop (s.length - suf.length) = suf
  · rw [if_pos h]
    simp only [Option.some.injEq]
    constructor
    · intro hd
      subst hd
      conv_lhs => rw [← List.take_append_drop (s.length - suf.length) s]
      rw [h.2]
    · intro hs
      subst hs
      have hlen : (d ++ suf).length - suf.length = d.length := by
        simp
      rw [hlen, List.take_left]
  · rw [if_neg h]
    constructor
    · intro hc; cases hc
    · intro hs
      exfalso
      apply h
      subst hs
      have hlen : (d ++ suf).length - suf.length = d.length := by
        simp
      exact ⟨by simp, by rw [hlen, List.drop_left]⟩

theorem findSuffix_sound :
    ∀ (L : List (List Char)) (s d suf : List Char),
      findSuffix L s = some (d, suf) →
      suf ∈ L ∧ s = d ++ suf ∧ d.all Char.isDigit = true := by
  intro L
  induction L with
  | nil =>
    intro s d suf h
    simp [findSuffix] at h
  | cons suf₀ rest ih =>
    intro s d suf h
    simp only [findSuffix] at h
    cases hstrip : stripSuffix s suf₀ with
    | some d₀ =>
      simp only [hstrip] at h
      by_cases hdig : d₀.all Char.isDigit = true
      · simp only [hdig, if_true, Option.some.injEq, Prod.mk.injEq] at h
        obtain ⟨hd, hsuf⟩ := h
        subst hd
        subst hsuf
        exact ⟨List.mem_cons_self _ _, stripSuffix_eq_some.mp hstrip, hdig⟩
      · simp only [hdig, if_false] at h
        obtain ⟨hm, hrest⟩ := ih s d suf h
        exact ⟨List.mem_cons_of_mem _ hm, hrest⟩
    | none =>
      simp only [hstrip] at h
      obtain ⟨hm, hrest⟩ := ih s d suf h
      exact ⟨List.mem_cons_of_mem _ hm, hrest⟩

theorem findSuffix_complete :
    ∀ (L : List (List Char)) (s : List Char),
      (∃ suf ∈ L, ∃ d : List Char, s = d ++ suf ∧ d.all Char.isDigit = true) →
      findSuffix L s ≠ none := by
  intro L
  induction L with
  | nil =>
    intro s h
    simp at h
  | cons suf₀ rest ih =>
    intro s h
    simp only [findSuffix]
    cases hstrip : stripSuffix s suf₀ with
    | some d₀ =>
      simp only [hstrip]
      by_cases hdig : d₀.all Char.isDigit = true
      · simp [hdig]
      · simp only [hdig, if_false]
        apply ih
        obtain ⟨suf, hmem, d, hs, hd⟩ := h
        rcases List.mem_cons.mp hmem with he | hm
        · exfalso
          subst he
          have hst : stripSuffix s suf = some d := stripSuffix_eq_some.mpr hs
          rw [hstrip] at hst
          injection hst with hdd
          subst hdd
          exact hdig hd
        · exact ⟨suf, hm, d, hs, hd⟩
    | none =>
      simp only [hstrip]
      apply ih
      obtain ⟨suf, hmem, d, hs, hd⟩ := h
      rcases List.mem_cons.mp hmem with he | hm
      · exfalso
        subst he
        have hst : stripSuffix s suf = some d := stripSuffix_eq_some.mpr hs
        rw [hstrip] at hst
        cases hst
      · exact ⟨suf, hm, d, hs, hd⟩

theorem digit_split_unique_aux {d suf d' suf' : List Char}
    (h : d ++ suf = d' ++ suf')
    (hd' : d'.all Char.isDigit = true)
    (hsuf : suf.all (fun c => !c.isDigit) = true)
    (hlen : d.length ≤ d'.length) :
    d = d' ∧ suf = suf' := by
  have h1 : d <+: d' ++ suf' := by
    rw [← h]
    exact List.prefix_append d suf
  have h2 : d' <+: d' ++ suf' := List.prefix_append d' suf'
  obtain ⟨m, hm⟩ := List.prefix_of_prefix_length_le h1 h2 hlen
  have hsufm : suf = m ++ suf' := by
    have hmm : d ++ suf = d ++ (m ++ suf') := by
      rw [h, ← hm, List.append_assoc]
    exact List.append_cancel_left hmm
  have hmdig : m.all Char.isDigit = true := by
    rw [← hm, List.all_append, Bool.and_eq_true] at hd'
    exact hd'.2
  have hmfree : m.all (fun c => !c.isDigit) = true := by
    rw [hsufm, List.all_append, Bool.and_eq_true] at hsuf
    exact hsuf.1
  have hm0 : m = [] := by
    cases m with
    | nil => rfl
    | cons c cs =>
      simp only [List.all_cons, Bool.and_eq_true] at hmdig hmfree
      rw [hmdig.1] at hmfree
      simp at hmfree
  subst hm0
  rw [List.append_nil] at hm
  subst hm
  rw [hsufm]
  simp

theorem digit_split_unique {d suf d' suf' : List Char}
    (h : d ++ suf = d' ++ suf')
    (hd : d.all Char.isDigit = true) (hd' : d'.all Char.isDigit = true)
    (hsuf : suf.all (fun c => !c.isDigit) = true)
    (hsuf' : suf'.all (fun c => !c.isDigit) = true) :
    d = d' ∧ suf = suf' := by
  rcases Nat.le_total d.length d'.length with hle | hle
  · exact digit_split_unique_aux h hd' hsuf hle
  · obtain ⟨h1, h2⟩ := digit_split_unique_aux h.symm hd hsuf' hle
    exact ⟨h1.symm, h2.symm⟩

theorem suffixes_digit_free : ∀ suf ∈ suffixes, suf.all (fun c => !c.isDigit) = true := by
  decide

theorem suffixes_ne_nil : ∀ suf ∈ suffixes, suf ≠ [] := by
  decide

theorem suffixToByteSize_on_suffixes :
    ∀ suf ∈ suffixes, ∀ v : Nat, ∃ b : ByteSize,
      suffixToByteSize suf v = some b ∧ b.value = v := by
  intro suf hsuf
  simp only [suffixes, List.mem_cons, List.not_mem_nil, or_false] at hsuf
  rcases hsuf with h|h|h|h|h|h|h|h|h|h|h|h|h <;> subst h <;>
    exact fun v => ⟨_, rfl, rfl⟩

theorem suffixToByteSize_value {suf : List Char} {v : Nat} {b : ByteSize}
    (h : suffixToByteSize suf v = some b) : b.value = v := by
  rw [suffixToByteSize] at h
  split_ifs at h <;> cases h <;> rfl

theorem parse_suffixed_ok_accepts {s : List Char} {b : ByteSize}
    (h : parse_suffixed s = .ok b) : spec_accepts_bounded s = true := by
  rw [parse_suffixed] at h
  cases hf : findSuffix suffixes s with
  | none => rw [hf] at h; cases h
  | some p =>
    obtain ⟨d, suf⟩ := p
    simp only [hf] at h
    cases hp : parse_u64 d with
    | none => simp only [hp] at h; cases h
    | some v =>
      obtain ⟨hmem, hs, hdig⟩ := findSuffix_sound suffixes s d suf hf
      obtain ⟨hne, _, hbound, _⟩ := parse_u64_eq_some.mp hp
      rw [spec_accepts_bounded, Bool.or_eq_true]
      right
      rw [List.any_eq_true]
      refine ⟨suf, hmem, ?_⟩
      simp only [stripSuffix_eq_some.mpr hs]
      simp [hne, hdig, hbound]

theorem parse_ok_accepts {s : List Char} {b : ByteSize}
    (h : parse_byte_size s = .ok b) : spec_accepts_bounded s = true := by
  rw [parse_byte_size] at h
  by_cases hall : s.all Char.isDigit = true
  · rw [if_pos hall] at h
    cases hp : parse_u64 s with
    | some v =>
      obtain ⟨hne, _, hbound, _⟩ := parse_u64_eq_some.mp hp
      rw [spec_accepts_bounded, Bool.or_eq_true]
      left
      simp [hne, hall, hbound]
    | none =>
      rw [hp] at h
      exact parse_suffixed_ok_accepts h
  · rw [if_neg hall] at h
    exact parse_suffixed_ok_accepts h

theorem accepts_parse_ok {s : List Char} (h : spec_accepts_bounded s = true) :
    ∃ b, parse_byte_size s = .ok b := by
  rw [spec_accepts_bounded, Bool.or_eq_true] at h
  rcases h with h1 | h2
  · simp only [Bool.and_eq_true, decide_eq_true_eq] at h1
    obtain ⟨⟨hne, hall⟩, hbound⟩ := h1
    have hp : parse_u64 s = some (digitsVal s) :=
      parse_u64_eq_some.mpr ⟨hne, hall, hbound, rfl⟩
    refine ⟨.Byte (digitsVal s), ?_⟩
    rw [parse_byte_size, if_pos hall, hp]
  · rw [List.any_eq_true] at h2
    obtain ⟨suf, hmem, hpred⟩ := h2
    cases hstrip : stripSuffix s suf with
    | none => rw [hstrip] at hpred; cases hpred
    | some d =>
      rw [hstrip] at hpred
      simp only [Bool.and_eq_true, decide_eq_true_eq] at hpred
      obtain ⟨⟨hne, hdig⟩, hbound⟩ := hpred
      have hs : s = d ++ suf := stripSuffix_eq_some.mp hstrip
      have hnall : ¬ s.all Char.isDigit = true := by
        intro hall
        rw [hs, List.all_append, Bool.and_eq_true] at hall
        have hfree := suffixes_digit_free suf hmem
        have hsufne := suffixes_ne_nil suf hmem
        cases suf with
        | nil => exact hsufne rfl
        | cons c cs =>
          have hall2 := hall.2
          simp only [List.all_cons, Bool.and_eq_true] at hall2 hfree
          rw [hall2.1] at hfree
          simp at hfree
      have hfind_ne : findSuffix suffixes s ≠ none :=
        findSuffix_complete suffixes s ⟨suf, hmem, d, hs, hdig⟩
      cases hf : findSuffix suffixes s with
      | none => exact absurd hf hfind_ne
      | some p =>
        obtain ⟨d₀, suf₀⟩ := p
        obtain ⟨hmem₀, hs₀, hdig₀⟩ := findSuffix_sound suffixes s d₀ suf₀ hf
        obtain ⟨hdd, hss⟩ := digit_split_unique (hs₀.symm.trans hs) hdig₀ hdig
          (suffixes_digit_free suf₀ hmem₀) (suffixes_digit_free suf hmem)
        subst hdd
        subst hss
        have hp : parse_u64 d₀ = some (digitsVal d₀) :=
          parse_u64_eq_some.mpr ⟨hne, hdig, hbound, rfl⟩
        obtain ⟨bb, hbb, hbv⟩ := suffixToByteSize_on_suffixes suf₀ hmem₀ (digitsVal d₀)
        refine ⟨bb, ?_⟩
        rw [parse_byte_size, if_neg hnall, parse_suffixed]
        simp only [hf, hp, hbb]

theorem parse_isOk_eq (s : List Char) :
    (parse_byte_size s).isOk = spec_accepts_bounded s := by
  cases hp : parse_byte_size s with
  | ok b => rw [parse_ok_accepts hp]; rfl
  | error e =>
    cases hacc : spec_accepts_bounded s with
    | false => rfl
    | true =>
      obtain ⟨b, hb⟩ := accepts_parse_ok hacc
      rw [hp] at hb
      cases hb

/-- C7 counterexample: the 20-digit literal 18446744073709551616 (= 2^64) is a
bare non-negative decimal integer — the claim's grammar accepts it — but the
parser rejects it with the invalid-size error, because `u64` parsing fails on
overflow and every suffix branch then fails too. -/
theorem parser_rejects_huge_numeral :
    spec_accepts ("18446744073709551616".data) = true ∧
    parse_byte_size ("18446744073709551616".data) = .error .invalid := by
  decide

/-- C7 (amended): the parser accepts exactly the claimed grammar restricted to
integer parts that fit in unsigned 64 bits: a bare non-negative decimal
integer below 2^64, or such an integer immediately followed by exactly one of
the case-sensitive suffixes B, KB/K, KiB, MB/M, MiB, GB/G, GiB, TB/T, TiB,
the whole remainder after stripping the suffix being all digits; every other
literal fails with the invalid-size error.  Concretely "10" yields 10 bytes,
"10KB" yields 10000, "10KiB" yields 10240, and "10XB" is rejected. -/
theorem parser_grammar_characterization :
    (∀ s : List Char, (parse_byte_size s).isOk = spec_accepts_bounded s) ∧
    parse_byte_size ['1', '0'] = .ok (ByteSize.Byte 10) ∧
    (ByteSize.Byte 10).intoU64 = 10 ∧
    parse_byte_size ['1', '0', 'K', 'B'] = .ok (ByteSize.KByte 10) ∧
    (ByteSize.KByte 10).intoU64 = 10000 ∧
    parse_byte_size ['1', '0', 'K', 'i', 'B'] = .ok (ByteSize.KiByte 10) ∧
    (ByteSize.KiByte 10).intoU64 = 10240 ∧
    parse_byte_size ['1', '0', 'X', 'B'] = .error .invalid :=
  ⟨parse_isOk_eq, by decide, by decide, by decide, by decide, by decide, by decide,
    by decide⟩

theorem parse_suffixed_value_lt {s : List Char} {b : ByteSize}
    (h : parse_suffixed s = .ok b) : b.value < U64_MOD := by
  rw [parse_suffixed] at h
  cases hf : findSuffix suffixes s with
  | none => rw [hf] at h; cases h
  | some p =>
    obtain ⟨d, suf⟩ := p
    simp only [hf] at h
    cases hp : parse_u64 d with
    | none => simp only [hp] at h; cases h
    | some v =>
      simp only [hp] at h
      cases hsb : suffixToByteSize suf v with
      | none => simp only [hsb] at h; cases h
      | some b' =>
        simp only [hsb, Except.ok.injEq] at h
        subst h
        obtain ⟨_, _, hbound, hv⟩ := parse_u64_eq_some.mp hp
        rw [suffixToByteSize_value hsb, ← hv]
        exact hbound

theorem parse_value_lt {s : List Char} {b : ByteSize}
    (h : parse_byte_size s = .ok b) : b.value < U64_MOD := by
  rw [parse_byte_size] at h
  by_cases hall : s.all Char.isDigit = true
  · rw [if_pos hall] at h
    cases hp : parse_u64 s with
    | some v =>
      rw [hp] at h
      injection h with hb
      obtain ⟨_, _, hbound, hv⟩ := parse_u64_eq_some.mp hp
      rw [← hb, ByteSize.value, ← hv]
      exact hbound
    | none =>
      rw [hp] at h
      exact parse_suffixed_value_lt h
  · rw [if_neg hall] at h
    exact parse_suffixed_value_lt h

theorem intoU64_eq_mod {b : ByteSize} (hv : b.value < U64_MOD) :
    b.intoU64 = b.value * b.multiplier % U64_MOD := by
  cases b with
  | Byte v =>
    simp only [ByteSize.intoU64, ByteSize.value, ByteSize.multiplier, Nat.mul_one]
    exact (Nat.mod_eq_of_lt hv).symm
  | KByte v => rfl
  | KiByte v => rfl
  | MByte v => rfl
  | MiByte v => rfl
  | GByte v => rfl
  | GiByte v => rfl
  | TByte v => rfl
  | TiByte v => rfl

/-- C10: the byte-count conversion multiplies the parsed digit value by the
unit multiplier in unchecked (wrapping) 64-bit arithmetic: for every accepted
literal the computed count equals the mathematical product reduced modulo
2^64, hence is exact exactly when the product is below 2^64; the accepted
20-digit literal 10000000000000000000TiB overflows, so its computed count is
the product modulo 2^64 and differs from the exact byte count. -/
theorem byte_size_conversion_wraps :
    (∀ (s : List Char) (b : ByteSize), parse_byte_size s = .ok b →
      b.intoU64 = b.value * b.multiplier % U64_MOD) ∧
    (∀ (s : List Char) (b : ByteSize), parse_byte_size s = .ok b →
      b.value * b.multiplier < U64_MOD → b.intoU64 = b.value * b.multiplier) ∧
    parse_byte_size ("10000000000000000000TiB".data) =
      .ok (ByteSize.TiByte 10000000000000000000) ∧
    (ByteSize.TiByte 10000000000000000000).intoU64 =
      10000000000000000000 * 1099511627776 % U64_MOD ∧
    (ByteSize.TiByte 10000000000000000000).intoU64 ≠
      10000000000000000000 * 1099511627776 := by
  refine ⟨fun s b h => intoU64_eq_mod (parse_value_lt h),
    fun s b h hlt => ?_, by decide, rfl, by decide⟩
  rw [intoU64_eq_mod (parse_value_lt h)]
  exact Nat.mod_eq_of_lt hlt

/-- C10 witness: the conversion laws applied to the accepted literal "10KiB",
whose product 10 * 1024 fits in 64 bits. -/
theorem byte_size_conversion_wraps_witness :
    (ByteSize.KiByte 10).intoU64 =
      (ByteSize.KiByte 10).value * (ByteSize.KiByte 10).multiplier % U64_MOD ∧
    (ByteSize.KiByte 10).intoU64 =
      (ByteSize.KiByte 10).value * (ByteSize.KiByte 10).multiplier :=
  ⟨byte_size_conversion_wraps.1 ['1', '0', 'K', 'i', 'B'] (ByteSize.KiByte 10) (by decide),
   byte_size_conversion_wraps.2.1 ['1', '0', 'K', 'i', 'B'] (ByteSize.KiByte 10)
     (by decide) (by decide)⟩

theorem assocFind_insertGroup_same :
    ∀ (m : List (String × List FileEntry)) (h : String) (f : FileEntry),
      assocFind h (insertGroup m h f) = some ((assocFind h m).getD [] ++ [f]) := by
  intro m h f
  induction m with
  | nil => simp [insertGroup, assocFind]
  | cons p rest ih =>
    obtain ⟨k, g⟩ := p
    simp only [insertGroup]
    by_cases hk : k = h
    · rw [if_pos hk]
      simp [assocFind, hk]
    · rw [if_neg hk]
      simp [assocFind, hk, ih]

theorem assocFind_insertGroup_other :
    ∀ (m : List (String × List FileEntry)) (h k' : String) (f : FileEntry), k' ≠ h →
      assocFind k' (insertGroup m h f) = assocFind k' m := by
  intro m h k' f hne
  induction m with
  | nil =>
    simp only [insertGroup, assocFind]
    rw [if_neg (fun he => hne he.symm)]
  | cons p rest ih =>
    obtain ⟨k, g⟩ := p
    simp only [insertGroup]
    by_cases hk : k = h
    · rw [if_pos hk]
      simp only [assocFind]
      rw [if_neg (by rw [hk]; exact fun he => hne he.symm),
        if_neg (by rw [hk]; exact fun he => hne he.symm)]
    · rw [if_neg hk]
      simp only [assocFind]
      by_cases hkk : k = k'
      · rw [if_pos hkk, if_pos hkk]
      · rw [if_neg hkk, if_neg hkk]
        exact ih

theorem mem_groupKeys_insertGroup :
    ∀ (m : List (String × List FileEntry)) (h : String) (f : FileEntry) (k : String),
      k ∈ groupKeys (insertGroup m h f) ↔ k = h ∨ k ∈ groupKeys m := by
  intro m h f k
  induction m with
  | nil => simp [insertGroup, groupKeys]
  | cons p rest ih =>
    obtain ⟨k₀, g⟩ := p
    simp only [insertGroup]
    by_cases hk : k₀ = h
    · rw [if_pos hk]
      subst hk
      simp only [groupKeys, List.map_cons, List.mem_cons]
      tauto
    · rw [if_neg hk]
      simp only [groupKeys, List.map_cons, List.mem_cons] at ih ⊢
      rw [ih]
      tauto

theorem nodup_groupKeys_insertGroup :
    ∀ (m : List (String × List FileEntry)) (h : String) (f : FileEntry),
      (groupKeys m).Nodup → (groupKeys (insertGroup m h f)).Nodup := by
  intro m h f
  induction m with
  | nil =>
    intro _
    simp [insertGroup, groupKeys]
  | cons p rest ih =>
    obtain ⟨k, g⟩ := p
    intro hnd
    simp only [groupKeys, List.map_cons, List.nodup_cons] at hnd
    obtain ⟨hknot, hrest⟩ := hnd
    simp only [insertGroup]
    by_cases hk : k = h
    · rw [if_pos hk]
      simp only [groupKeys, List.map_cons, List.nodup_cons]
      exact ⟨hknot, hrest⟩
    · rw [if_neg hk]
      simp only [groupKeys, List.map_cons, List.nodup_cons]
      refine ⟨?_, ih hrest⟩
      intro hmem
      rcases (mem_groupKeys_insertGroup rest h f k).mp hmem with he | hm
      · exact hk he
      · exact hknot hm

theorem nodup_groupKeys_buildGroups :
    ∀ (l : List FileEntry) (m : List (String × List FileEntry)),
      (groupKeys m).Nodup → (groupKeys (buildGroups m l)).Nodup := by
  intro l
  induction l with
  | nil => intro m h; simpa [buildGroups] using h
  | cons f rest ih =>
    intro m h
    exact ih (insertGroup m f.hash (eraseHash f))
      (nodup_groupKeys_insertGroup m f.hash (eraseHash f) h)

theorem assocFind_eq_some_iff_mem :
    ∀ (m : List (String × List FileEntry)) (k : String) (g : List FileEntry),
      (groupKeys m).Nodup → (assocFind k m = some g ↔ (k, g) ∈ m) := by
  intro m
  induction m with
  | nil =>
    intro k g _
    simp [assocFind]
  | cons p rest ih =>
    obtain ⟨k₀, g₀⟩ := p
    intro k g hnd
    simp only [groupKeys, List.map_cons, List.nodup_cons] at hnd
    obtain ⟨hknot, hrest⟩ := hnd
    simp only [assocFind, List.mem_cons, Prod.mk.injEq]
    by_cases hk : k₀ = k
    · rw [if_pos hk]
      subst hk
      constructor
      · intro hg
        injection hg with hg
        exact Or.inl ⟨rfl, hg.symm⟩
      · intro hor
        rcases hor with ⟨_, hg⟩ | hm
        · rw [hg]
        · exact absurd (List.mem_map_of_mem Prod.fst hm) hknot
    · rw [if_neg hk]
      rw [ih k g hrest]
      constructor
      · intro hm
        exact Or.inr hm
      · intro hor
        rcases hor with ⟨hke, _⟩ | hm
        · exact absurd hke.symm hk
        · exact hm

theorem mem_values_iff (m : List (String × List FileEntry))
    (hnd : (groupKeys m).Nodup) (g : List FileEntry) :
    g ∈ m.map Prod.snd ↔ ∃ k, assocFind k m = some g := by
  rw [List.mem_map]
  constructor
  · intro hp
    obtain ⟨p, hp, hpe⟩ := hp
    refine ⟨p.1, (assocFind_eq_some_iff_mem m p.1 g hnd).mpr ?_⟩
    rw [← hpe]
    exact hp
  · intro hk
    obtain ⟨k, hk⟩ := hk
    exact ⟨(k, g), (assocFind_eq_some_iff_mem m k g hnd).mp hk, rfl⟩

theorem classOf_cons_eq (f : FileEntry) (rest : List FileEntry) :
    classOf (f :: rest) f.hash = eraseHash f :: classOf rest f.hash := by
  simp [classOf, List.filter_cons]

theorem classOf_cons_ne (f : FileEntry) (rest : List FileEntry) (h : String)
    (hne : ¬ f.hash = h) : classOf (f :: rest) h = classOf rest h := by
  simp [classOf, List.filter_cons, hne]

theorem assocFind_buildGroups :
    ∀ (l : List FileEntry) (m : List (String × List FileEntry)) (h : String),
      assocFind h (buildGroups m l) =
        match assocFind h m with
        | some g => some (g ++ classOf l h)
        | none => if classOf l h = [] then none else some (classOf l h) := by
  intro l
  induction l with
  | nil =>
    intro m h
    simp only [buildGroups, List.foldl_nil, classOf, List.filter_nil, List.map_nil]
    cases assocFind h m with
    | some g => simp
    | none => simp
  | cons f rest ih =>
    intro m h
    have hstep : buildGroups m (f :: rest) =
        buildGroups (insertGroup m f.hash (eraseHash f)) rest := rfl
    rw [hstep, ih]
    by_cases hfh : f.hash = h
    · subst hfh
      simp only [assocFind_insertGroup_same, classOf_cons_eq]
      cases hm : assocFind f.hash m with
      | some g => simp
      | none => simp
    · rw [assocFind_insertGroup_other m f.hash h (eraseHash f) (fun he => hfh he.symm),
        classOf_cons_ne f rest h hfh]

theorem assocFind_buildGroups_nil (l : List FileEntry) (h : String) :
    assocFind h (buildGroups [] l) =
      if classOf l h = [] then none else some (classOf l h) := by
  rw [assocFind_buildGroups]
  rfl

theorem buildGroups_append (m : List (String × List FileEntry))
    (l1 l2 : List FileEntry) :
    buildGroups (buildGroups m l1) l2 = buildGroups m (l1 ++ l2) := by
  simp [buildGroups, List.foldl_append]

theorem mem_duplicate_report_iff (data : List FileEntry)
    (other : Option (List FileEntry)) (minimum : Option ByteSize) (g : List FileEntry) :
    g ∈ duplicate_report_groups data other minimum ↔
      (∃ h, classOf (data ++ other.getD []) h = g) ∧ 1 < g.length ∧
        minimumBytes minimum ≤ repSize g := by
  have hl : duplicate_report_groups data other minimum =
      (stableSortBy (fun g1 g2 => decide (repSize g2 ≤ repSize g1))
        (((buildGroups [] (data ++ other.getD [])).map Prod.snd).filter
          fun g => decide (1 < g.length))).filter
        fun g => decide (minimumBytes minimum ≤ repSize g) := by
    rw [duplicate_report_groups, buildGroups_append]
  rw [hl, List.mem_filter, List.Perm.mem_iff (stableSortBy_perm _ _), List.mem_filter,
    mem_values_iff _ (nodup_groupKeys_buildGroups _ [] List.nodup_nil) g]
  simp only [decide_eq_true_eq]
  constructor
  · intro hh
    obtain ⟨⟨⟨k, hk⟩, hlen⟩, hmin⟩ := hh
    rw [assocFind_buildGroups_nil] at hk
    by_cases hcls : classOf (data ++ other.getD []) k = []
    · rw [if_pos hcls] at hk
      cases hk
    · rw [if_neg hcls] at hk
      injection hk with hk
      exact ⟨⟨k, hk⟩, hlen, hmin⟩
  · intro hh
    obtain ⟨⟨k, hk⟩, hlen, hmin⟩ := hh
    refine ⟨⟨⟨k, ?_⟩, hlen⟩, hmin⟩
    rw [assocFind_buildGroups_nil]
    have hne : classOf (data ++ other.getD []) k ≠ [] := by
      rw [hk]
      intro he
      rw [he] at hlen
      simp at hlen
    rw [if_neg hne, hk]

/-- C8: the duplicate report contains exactly the digest-equivalence classes
— over the concatenation of the one or two input indexes — that have at least
two members and whose representative size is not strictly below the
minimum-size threshold.  Concretely, for records {A: size 10, hash x},
{B: size 10, hash x}, {C: size 20, hash y} the report is the single group
{A, B} with C excluded, and with minimum size 50 the size-10 group is excluded
even though it has two members. -/
theorem duplicate_report_exactly_groups :
    (∀ (data : List FileEntry) (other : Option (List FileEntry))
        (minimum : Option ByteSize) (g : List FileEntry),
      g ∈ duplicate_report_groups data other minimum ↔
        (∃ h, classOf (data ++ other.getD []) h = g) ∧ 1 < g.length ∧
          minimumBytes minimum ≤ repSize g) ∧
    duplicate_report_groups
        [⟨"A", 10, "x", 0⟩, ⟨"B", 10, "x", 0⟩, ⟨"C", 20, "y", 0⟩] none none =
      [[⟨"A", 10, "", 0⟩, ⟨"B", 10, "", 0⟩]] ∧
    duplicate_report_groups
        [⟨"A", 10, "x", 0⟩, ⟨"B", 10, "x", 0⟩, ⟨"C", 20, "y", 0⟩] none
        (some (ByteSize.Byte 50)) = [] :=
  ⟨mem_duplicate_report_iff, by decide, by decide⟩

/-- C9 counterexample: two zero-byte files with the same digest form a
two-member group, yet with no minimum-size option the report is empty — the
default threshold of 1 byte is not "effectively no filter": it suppresses the
zero-size groups the claim says appear. -/
theorem zero_size_group_suppressed_by_default :
    duplicate_report_groups [⟨"z1", 0, "h", 0⟩, ⟨"z2", 0, "h", 0⟩] none none = [] := by
  decide

/-- C9 (amended): with no minimum-size option the threshold defaults to 1
byte, which excludes exactly the zero-size groups: a group appears in the
report if and only if it is a digest-equivalence class with at least two
members and representative size at least 1 byte. -/
theorem default_threshold_excludes_only_zero :
    ∀ (data : List FileEntry) (other : Option (List FileEntry)) (g : List FileEntry),
      g ∈ duplicate_report_groups data other none ↔
        (∃ h, classOf (data ++ other.getD []) h = g) ∧ 1 < g.length ∧
          1 ≤ repSize g := by
  intro data other g
  exact mem_duplicate_report_iff data other none g

end HashFolder
